import Mathlib

/-!
Shallow embedding of the core of `src/daa_miniproject.py`: the input
validator `validate_inputs`, the instrumented naive string matcher
`naive_string_matching_instrumented` and the instrumented Rabin-Karp
matcher `rabin_karp_instrumented`.

Modelling choices:
* Python strings are `List Char`; Python `ord` is the Unicode code point
  (`Char.toNat`), cast to `Int` because the Rabin-Karp roll step works on
  possibly negative intermediate values.  Python `%` on a positive modulus
  agrees with Lean's `Int.emod` (always a non-negative residue), so `%` on
  `Int` models it exactly.
* `time.perf_counter_ns` is non-deterministic: each matcher takes timing
  oracles (one elapsed value per emitted step) and stores their values in
  the `iteration_time_s` fields; nothing else depends on them.
  `sys.getsizeof(text) + sys.getsizeof(pattern)` is likewise passed in as
  an opaque `mem : Nat` constant.
* The source marks the rolling-hash step after offset `i` with the
  fractional index `i + 0.5`; following the spec's design note the trace
  order plus the `phase` tag carry that information here, and the roll
  step stores the offset `i` it follows in its `index` field (the init
  step keeps the source's index `-1`).
* The human-readable `details` strings are reproduced without the source's
  decorative quote characters around single characters; no correctness
  property reads them.
* Python raises `IndexError` on out-of-range indexing while `charAt`
  totalises it with a default; the two agree on every execution path the
  matchers take on inputs satisfying the validator's invariant
  (`1 ≤ m ≤ n`), which is the only regime the theorems below quantify
  over.
-/

set_option maxRecDepth 8000

namespace DAA

/-- Python `ord c` as an integer. -/
def ordc (c : Char) : Int := (c.toNat : Int)

/-- Python `s[k]` (in bounds on every path taken on valid inputs). -/
def charAt (s : List Char) (k : Nat) : Char := s.getD k default

/-- One record of the naive matcher's `iterations` list, with the keys of
the dictionary built at the end of each outer-loop body. -/
structure NaiveStep where
  index : Nat
  matched : Bool
  comparisons : Nat
  iteration_time_s : ℚ
  memory_bytes : Nat
  details : List String
deriving Repr, DecidableEq

/-- One record of the Rabin-Karp matcher's `iterations` list.  The source
uses one dictionary shape for all three phases (`"init_hash"`, `"check"`,
`"rolling_hash"`). -/
structure RKStep where
  index : Int
  phase : String
  p_hash : Int
  t_hash : Int
  matched : Bool
  comparisons : Nat
  iteration_time_s : ℚ
  memory_bytes : Nat
  details : List String
deriving Repr, DecidableEq

/-- `validate_inputs` from the source: the same three guards in the same
order, with Python's falsiness of empty strings rendered as `isEmpty`. -/
def validate_inputs (text pattern : List Char) : Except String (List Char × List Char) :=
  if text.isEmpty || pattern.isEmpty then
    Except.error "Text and Pattern cannot be empty."
  else if pattern.length > text.length then
    Except.error "Pattern cannot be longer than text."
  else if text.length > 20000 then
    Except.error "Text too large for interactive demo (max 20,000 chars)."
  else
    Except.ok (text, pattern)

/-- The inner character-comparison loop `for j in range(m): ...` shared by
both matchers: starting at column `j` with `fuel = m - j` columns left, it
returns the number of comparisons performed, whether every remaining
column matched, and the detail lines.  `stopTag` selects the naive
matcher's `" (stop)"` suffix on the mismatch line. -/
def cmpLoop (text pattern : List Char) (stopTag : Bool) (i : Nat) :
    Nat → Nat → Nat × Bool × List String
  | 0, _ => (0, true, [])
  | fuel + 1, j =>
    let tc := charAt text (i + j)
    let pc := charAt pattern j
    if tc ≠ pc then
      (1, false,
        ["t[" ++ toString (i + j) ++ "]=" ++ tc.toString ++ " != p[" ++ toString j ++ "]=" ++
          pc.toString ++ (if stopTag then " (stop)" else "")])
    else
      let r := cmpLoop text pattern stopTag i fuel (j + 1)
      (r.1 + 1, r.2.1,
        ("t[" ++ toString (i + j) ++ "]=" ++ tc.toString ++ " == p[" ++ toString j ++ "]=" ++
          pc.toString) :: r.2.2)

/-- The naive matcher's outer-loop body at offset `i`: run the inner loop
over the whole pattern and build the iteration record. -/
def naiveStepAt (text pattern : List Char) (ntimer : Nat → ℚ) (mem : Nat) (i : Nat) :
    NaiveStep :=
  let r := cmpLoop text pattern true i pattern.length 0
  { index := i
    matched := r.2.1
    comparisons := r.1
    iteration_time_s := ntimer i
    memory_bytes := mem
    details := r.2.2 }

/-- `naive_string_matching_instrumented` from the source.  The Python loop
`for i in range(n - m + 1)` visits exactly the offsets
`List.range (n + 1 - m)` (both are empty when `m > n`); `matches` collects
the offsets whose inner loop ran to completion and `iterations` collects
one record per offset, in order. -/
def naive_string_matching_instrumented (text pattern : List Char) (ntimer : Nat → ℚ)
    (mem : Nat) : List Nat × List NaiveStep :=
  let offsets := List.range (text.length + 1 - pattern.length)
  (offsets.filter fun i => (cmpLoop text pattern true i pattern.length 0).2.1,
   offsets.map (naiveStepAt text pattern ntimer mem))

/-- The fold `hash = (d * hash + ord(c)) % q` over a character list, as in
the source's initial-hash loop. -/
def hashFold (d q : Int) (cs : List Char) : Int :=
  cs.foldl (fun hsh c => (d * hsh + ordc c) % q) 0

/-- The `init_hash` record the Rabin-Karp matcher appends before its main
loop: `h = pow(d, m-1, q)`, and both hashes folded over the first `m`
characters. -/
def rkInitStep (text pattern : List Char) (d q : Int) (t0 : ℚ) (mem : Nat) : RKStep :=
  let m := pattern.length
  let h := d ^ (m - 1) % q
  let p_hash := hashFold d q pattern
  let t_hash := hashFold d q (text.take m)
  { index := -1
    phase := "init_hash"
    p_hash := p_hash
    t_hash := t_hash
    matched := false
    comparisons := 0
    iteration_time_s := t0
    memory_bytes := mem
    details := ["initial p_hash=" ++ toString p_hash ++ ", t_hash=" ++ toString t_hash ++
      ", h=" ++ toString h] }

/-- The body of the `if p_hash == t_hash` branch pair at offset `i`: the
comparisons performed, the match flag, and the detail lines. -/
def rkCmpRes (text pattern : List Char) (p_hash t_hash : Int) (i : Nat) :
    Nat × Bool × List String :=
  if p_hash = t_hash then cmpLoop text pattern false i pattern.length 0
  else (0, false, ["Hash mismatch: " ++ toString p_hash ++ " vs " ++ toString t_hash])

/-- The `"check"` record appended at offset `i` when the current hashes
are `p_hash` and `t_hash`. -/
def rkCheckStep (text pattern : List Char) (p_hash t_hash : Int) (ctimer : Nat → ℚ)
    (mem : Nat) (i : Nat) : RKStep :=
  let r := rkCmpRes text pattern p_hash t_hash i
  { index := (i : Int)
    phase := "check"
    p_hash := p_hash
    t_hash := t_hash
    matched := r.2.1
    comparisons := r.1
    iteration_time_s := ctimer i
    memory_bytes := mem
    details := r.2.2 }

/-- The `"rolling_hash"` record appended after offset `i` once the window
hash has been rolled to `t2`. -/
def rkRollStep (p_hash t2 : Int) (rtimer : Nat → ℚ) (mem : Nat) (i : Nat) : RKStep :=
  { index := (i : Int)
    phase := "rolling_hash"
    p_hash := p_hash
    t_hash := t2
    matched := false
    comparisons := 0
    iteration_time_s := rtimer i
    memory_bytes := mem
    details := ["rolled t_hash -> " ++ toString t2] }

/-- The main loop of `rabin_karp_instrumented`, rendered as a counted loop:
`rkGo ... k i t_hash` runs the body for offsets `i, i+1, ...` (`k` of
them), threading the rolling hash `t_hash` exactly as the source does, and
returns the matches found and the records appended. -/
def rkGo (text pattern : List Char) (d q h p_hash : Int) (ctimer rtimer : Nat → ℚ)
    (mem : Nat) : Nat → Nat → Int → List Nat × List RKStep
  | 0, _, _ => ([], [])
  | k + 1, i, t_hash =>
    let n := text.length
    let m := pattern.length
    let r := rkCmpRes text pattern p_hash t_hash i
    let found : List Nat := if r.2.1 then [i] else []
    if i < n - m then
      let t2 := (d * (t_hash - ordc (charAt text i) * h) + ordc (charAt text (i + m))) % q
      let rest := rkGo text pattern d q h p_hash ctimer rtimer mem k (i + 1) t2
      (found ++ rest.1,
       rkCheckStep text pattern p_hash t_hash ctimer mem i ::
         rkRollStep p_hash t2 rtimer mem i :: rest.2)
    else
      let rest := rkGo text pattern d q h p_hash ctimer rtimer mem k (i + 1) t_hash
      (found ++ rest.1, rkCheckStep text pattern p_hash t_hash ctimer mem i :: rest.2)

/-- `rabin_karp_instrumented` from the source: the init record followed by
the main loop over offsets `0 .. n-m` (`List.range (n + 1 - m)` many). -/
def rabin_karp_instrumented (text pattern : List Char) (d q : Int) (t0 : ℚ)
    (ctimer rtimer : Nat → ℚ) (mem : Nat) : List Nat × List RKStep :=
  let n := text.length
  let m := pattern.length
  let h := d ^ (m - 1) % q
  let p_hash := hashFold d q pattern
  let t_hash := hashFold d q (text.take m)
  let res := rkGo text pattern d q h p_hash ctimer rtimer mem (n + 1 - m) 0 t_hash
  (res.1, rkInitStep text pattern d q t0 mem :: res.2)

/-! ## Specification-side definitions -/

/-- The window of `m` characters of `text` starting at offset `i`. -/
def window (text : List Char) (i m : Nat) : List Char := (text.drop i).take m

/-- The base-`d` polynomial value of a character list, without any modular
reduction: the mathematical value whose residue the source's hash fold
computes. -/
def polyHash (d : Int) (cs : List Char) : Int :=
  cs.foldl (fun a c => d * a + ordc c) 0

/-- The from-scratch hash of the window at offset `i`: what the rolling
`t_hash` is supposed to equal throughout the Rabin-Karp main loop. -/
def scratchHash (text : List Char) (m : Nat) (d q : Int) (i : Nat) : Int :=
  hashFold d q (window text i m)

/-! ## Hash lemmas -/

theorem hashFold_step (d q a x : Int) : (d * (a % q) + x) % q = (d * a + x) % q :=
  Int.ModEq.add_right x (Int.ModEq.mul_left d (Int.emod_emod_of_dvd a dvd_rfl))

/-- The source's mod-at-every-step fold computes the residue of the plain
polynomial value. -/
theorem hashFold_eq_polyHash (d q : Int) (cs : List Char) :
    hashFold d q cs = polyHash d cs % q := by
  suffices h : ∀ (cs : List Char) (a : Int),
      cs.foldl (fun hsh c => (d * hsh + ordc c) % q) (a % q) =
        cs.foldl (fun hsh c => d * hsh + ordc c) a % q by
    have h0 := h cs 0
    simpa [hashFold, polyHash] using h0
  intro cs
  induction cs with
  | nil => intro a; rfl
  | cons c cs ih =>
    intro a
    simp only [List.foldl_cons]
    rw [hashFold_step, ih]

theorem polyHash_append (d : Int) (cs : List Char) (c : Char) :
    polyHash d (cs ++ [c]) = d * polyHash d cs + ordc c := by
  simp [polyHash, List.foldl_append]

theorem polyHash_foldl_comm (d : Int) (cs : List Char) (a : Int) :
    cs.foldl (fun x c => d * x + ordc c) a = d ^ cs.length * a + polyHash d cs := by
  induction cs generalizing a with
  | nil => simp [polyHash]
  | cons c cs ih =>
    simp only [List.foldl_cons, List.length_cons, polyHash]
    rw [ih (d * a + ordc c), ih (d * 0 + ordc c)]
    ring

theorem polyHash_cons (d : Int) (c : Char) (cs : List Char) :
    polyHash d (c :: cs) = d ^ cs.length * ordc c + polyHash d cs := by
  have h := polyHash_foldl_comm d cs (ordc c)
  simpa [polyHash] using h

/-! ## Window lemmas -/

theorem length_window (text : List Char) (i m : Nat) (h : i + m ≤ text.length) :
    (window text i m).length = m := by
  simp only [window, List.length_take, List.length_drop]
  omega

theorem window_cons (text : List Char) (i m : Nat) (hm : 1 ≤ m) (hi : i < text.length) :
    window text i m = charAt text i :: window text (i + 1) (m - 1) := by
  have hdrop : text.drop i = text[i] :: text.drop (i + 1) := List.drop_eq_getElem_cons hi
  have hc : charAt text i = text[i] := by
    simp [charAt, List.getD_eq_getElem?_getD, List.getElem?_eq_getElem hi]
  obtain ⟨m', rfl⟩ : ∃ m', m = m' + 1 := ⟨m - 1, by omega⟩
  rw [window, window, hdrop, hc]
  rw [List.take_succ_cons]
  norm_num

theorem window_snoc (text : List Char) (i m : Nat) (hm : 1 ≤ m)
    (h : i + m < text.length) :
    window text (i + 1) m = window text (i + 1) (m - 1) ++ [charAt text (i + m)] := by
  obtain ⟨m', rfl⟩ : ∃ m', m = m' + 1 := ⟨m - 1, by omega⟩
  have him : i + 1 + m' < text.length := by omega
  have hget : (text.drop (i + 1))[m']? = some text[i + 1 + m'] := by
    rw [List.getElem?_drop, List.getElem?_eq_getElem him]
  have hc : charAt text (i + (m' + 1)) = text[i + 1 + m'] := by
    have hidx : i + (m' + 1) = i + 1 + m' := by omega
    simp [charAt, hidx, List.getD_eq_getElem?_getD, List.getElem?_eq_getElem him]
  simp [window, List.take_succ, hget, hc]

theorem charAt_window_eq (text pattern : List Char) (i : Nat)
    (h : i + pattern.length ≤ text.length) :
    (window text i pattern.length = pattern ↔
      ∀ l, l < pattern.length → charAt text (i + l) = charAt pattern l) := by
  set m := pattern.length with hmdef
  have hlen : (window text i m).length = m := length_window text i m h
  constructor
  · intro hw l hl
    have hil : i + l < text.length := by omega
    have h1 : charAt text (i + l) = text[i + l] := by
      simp [charAt, List.getD_eq_getElem?_getD, List.getElem?_eq_getElem hil]
    have h2 : charAt pattern l = pattern[l] := by
      simp [charAt, List.getD_eq_getElem?_getD, List.getElem?_eq_getElem hl]
    have hl3 : l < (window text i m).length := by omega
    have h3 : (window text i m)[l] = text[i + l] := by
      simp [window, List.getElem_take, List.getElem_drop]
    rw [h1, h2, ← h3]
    exact List.getElem_of_eq hw _
  · intro hc
    apply List.ext_getElem (by omega)
    intro l h1 h2
    have hil : i + l < text.length := by omega
    have h3 : (window text i m)[l] = text[i + l] := by
      simp [window, List.getElem_take, List.getElem_drop]
    have h4 := hc l (by omega)
    have h5 : charAt text (i + l) = text[i + l] := by
      simp [charAt, List.getD_eq_getElem?_getD, List.getElem?_eq_getElem hil]
    have h6 : charAt pattern l = pattern[l] := by
      simp [charAt, List.getD_eq_getElem?_getD, List.getElem?_eq_getElem h2]
    rw [h3, ← h5, h4, h6]

/-! ## Lemmas about the inner comparison loop -/

theorem cmpLoop_succ_matched (text pattern : List Char) (tag : Bool) (i fuel j : Nat) :
    (cmpLoop text pattern tag i (fuel + 1) j).2.1 =
      if charAt text (i + j) = charAt pattern j then
        (cmpLoop text pattern tag i fuel (j + 1)).2.1
      else false := by
  rw [cmpLoop]
  by_cases h : charAt text (i + j) = charAt pattern j
  · simp [h]
  · simp [h]

theorem cmpLoop_succ_comparisons (text pattern : List Char) (tag : Bool) (i fuel j : Nat) :
    (cmpLoop text pattern tag i (fuel + 1) j).1 =
      if charAt text (i + j) = charAt pattern j then
        (cmpLoop text pattern tag i fuel (j + 1)).1 + 1
      else 1 := by
  rw [cmpLoop]
  by_cases h : charAt text (i + j) = charAt pattern j
  · simp [h]
  · simp [h]

/-- The inner loop reports a match exactly when every remaining column
agrees. -/
theorem cmpLoop_matched_iff (text pattern : List Char) (tag : Bool) (i : Nat) :
    ∀ fuel j, ((cmpLoop text pattern tag i fuel j).2.1 = true ↔
      ∀ l, l < fuel → charAt text (i + j + l) = charAt pattern (j + l)) := by
  intro fuel
  induction fuel with
  | zero => intro j; simp [cmpLoop]
  | succ fuel ih =>
    intro j
    rw [cmpLoop_succ_matched]
    by_cases h : charAt text (i + j) = charAt pattern j
    · rw [if_pos h, ih (j + 1)]
      constructor
      · intro hall l hl
        rcases Nat.eq_zero_or_pos l with rfl | hp
        · simpa using h
        · obtain ⟨l', rfl⟩ : ∃ l', l = l' + 1 := ⟨l - 1, by omega⟩
          have hrec := hall l' (by omega)
          have e1 : i + (j + 1) + l' = i + j + (l' + 1) := by omega
          have e2 : j + 1 + l' = j + (l' + 1) := by omega
          rwa [e1, e2] at hrec
      · intro hall l hl
        have hrec := hall (l + 1) (by omega)
        have e1 : i + j + (l + 1) = i + (j + 1) + l := by omega
        have e2 : j + (l + 1) = j + 1 + l := by omega
        rwa [e1, e2] at hrec
    · rw [if_neg h]
      simp only [Bool.false_eq_true, false_iff]
      intro hall
      exact h (by simpa using hall 0 (by omega))

/-- On a full match the loop performs one comparison per remaining
column. -/
theorem cmpLoop_comparisons_of_matched (text pattern : List Char) (tag : Bool) (i : Nat) :
    ∀ fuel j, (cmpLoop text pattern tag i fuel j).2.1 = true →
      (cmpLoop text pattern tag i fuel j).1 = fuel := by
  intro fuel
  induction fuel with
  | zero => intro j _; rfl
  | succ fuel ih =>
    intro j hm
    rw [cmpLoop_succ_matched] at hm
    rw [cmpLoop_succ_comparisons]
    by_cases h : charAt text (i + j) = charAt pattern j
    · rw [if_pos h] at hm ⊢
      rw [ih (j + 1) hm]
    · rw [if_neg h] at hm
      exact absurd hm (by simp)

/-- On a mismatch the loop short-circuits: it performs `kk + 1`
comparisons, where column `kk` is the first disagreeing column. -/
theorem cmpLoop_comparisons_of_mismatch (text pattern : List Char) (tag : Bool) (i : Nat) :
    ∀ fuel j, (cmpLoop text pattern tag i fuel j).2.1 = false →
      ∃ kk, kk < fuel ∧ (cmpLoop text pattern tag i fuel j).1 = kk + 1 ∧
        charAt text (i + j + kk) ≠ charAt pattern (j + kk) ∧
        ∀ l, l < kk → charAt text (i + j + l) = charAt pattern (j + l) := by
  intro fuel
  induction fuel with
  | zero => intro j hm; exact absurd hm (by simp [cmpLoop])
  | succ fuel ih =>
    intro j hm
    rw [cmpLoop_succ_matched] at hm
    rw [cmpLoop_succ_comparisons]
    by_cases h : charAt text (i + j) = charAt pattern j
    · rw [if_pos h] at hm ⊢
      obtain ⟨kk, hk1, hk2, hk3, hk4⟩ := ih (j + 1) hm
      refine ⟨kk + 1, by omega, by rw [hk2], ?_, ?_⟩
      · have e1 : i + j + (kk + 1) = i + (j + 1) + kk := by omega
        have e2 : j + (kk + 1) = j + 1 + kk := by omega
        rwa [e1, e2]
      · intro l hl
        rcases Nat.eq_zero_or_pos l with rfl | hp
        · simpa using h
        · obtain ⟨l', rfl⟩ : ∃ l', l = l' + 1 := ⟨l - 1, by omega⟩
          have hrec := hk4 l' (by omega)
          have e1 : i + (j + 1) + l' = i + j + (l' + 1) := by omega
          have e2 : j + 1 + l' = j + (l' + 1) := by omega
          rwa [e1, e2] at hrec
    · rw [if_neg h]
      exact ⟨0, by omega, rfl, by simpa using h, by omega⟩

/-- Under the in-bounds condition the inner loop's match flag decides
window equality. -/
theorem cmpLoop_matched_eq_decide (text pattern : List Char) (tag : Bool) (i : Nat)
    (h : i + pattern.length ≤ text.length) :
    (cmpLoop text pattern tag i pattern.length 0).2.1 =
      decide (window text i pattern.length = pattern) := by
  by_cases hw : window text i pattern.length = pattern
  · have hd : decide (window text i pattern.length = pattern) = true := by simpa using hw
    rw [hd, cmpLoop_matched_iff]
    intro l hl
    have := (charAt_window_eq text pattern i h).mp hw l hl
    simpa using this
  · rw [decide_eq_false hw]
    by_contra hb
    have hmt : (cmpLoop text pattern tag i pattern.length 0).2.1 = true := by
      cases hv : (cmpLoop text pattern tag i pattern.length 0).2.1
      · exact absurd hv hb
      · rfl
    have hall := (cmpLoop_matched_iff text pattern tag i pattern.length 0).mp hmt
    exact hw ((charAt_window_eq text pattern i h).mpr (by
      intro l hl
      simpa using hall l hl))

/-! ## The rolling-hash identity -/

/-- The source's roll formula, applied to the true window hash at offset
`i`, produces the true window hash at offset `i + 1` — for every base and
every modulus (the identity is pure modular arithmetic). -/
theorem roll_formula (text : List Char) (m : Nat) (d q : Int) (i : Nat)
    (hm : 1 ≤ m) (h : i + m < text.length) :
    (d * (scratchHash text m d q i - ordc (charAt text i) * (d ^ (m - 1) % q)) +
        ordc (charAt text (i + m))) % q =
      scratchHash text m d q (i + 1) := by
  have hwc : window text i m = charAt text i :: window text (i + 1) (m - 1) :=
    window_cons text i m hm (by omega)
  have hws : window text (i + 1) m = window text (i + 1) (m - 1) ++ [charAt text (i + m)] :=
    window_snoc text i m hm h
  have hlen : (window text (i + 1) (m - 1)).length = m - 1 :=
    length_window text (i + 1) (m - 1) (by omega)
  set A := polyHash d (window text i m) with hA
  set B := polyHash d (window text (i + 1) (m - 1)) with hB
  set ci := ordc (charAt text i) with hci
  set cm := ordc (charAt text (i + m)) with hcm
  have hAval : A = d ^ (m - 1) * ci + B := by
    rw [hA, hwc, polyHash_cons, hlen]
  have hW' : polyHash d (window text (i + 1) m) = d * B + cm := by
    rw [hws, polyHash_append]
  unfold scratchHash
  rw [hashFold_eq_polyHash, hashFold_eq_polyHash]
  have h1 : A % q ≡ A [ZMOD q] := Int.emod_emod_of_dvd A dvd_rfl
  have h2 : d ^ (m - 1) % q ≡ d ^ (m - 1) [ZMOD q] := Int.emod_emod_of_dvd _ dvd_rfl
  have h3 : A % q - ci * (d ^ (m - 1) % q) ≡ A - ci * d ^ (m - 1) [ZMOD q] :=
    h1.sub (h2.mul_left ci)
  have h4 : d * (A % q - ci * (d ^ (m - 1) % q)) + cm ≡
      d * (A - ci * d ^ (m - 1)) + cm [ZMOD q] := (h3.mul_left d).add_right cm
  have h5 : d * (A - ci * d ^ (m - 1)) + cm = polyHash d (window text (i + 1) m) := by
    rw [hW', hAval]; ring
  exact h4.trans (h5 ▸ Int.ModEq.refl _)

/-- If the window at `i` is the pattern then its from-scratch hash is the
pattern hash. -/
theorem scratchHash_eq_of_window (text pattern : List Char) (d q : Int) (i : Nat)
    (hw : window text i pattern.length = pattern) :
    scratchHash text pattern.length d q i = hashFold d q pattern := by
  rw [scratchHash, hw]

/-- The initial text-window hash (over the first `m` characters) is the
from-scratch hash of the window at offset `0`. -/
theorem scratchHash_zero (text : List Char) (m : Nat) (d q : Int) :
    scratchHash text m d q 0 = hashFold d q (text.take m) := by
  rw [scratchHash, window, List.drop_zero]

/-- The match flag produced at a check step with the true window hash
decides window equality: a hash mismatch certifies a window mismatch, and
a hash collision is always resolved by the character comparison. -/
theorem rkCmpRes_matched (text pattern : List Char) (d q : Int) (i : Nat)
    (h : i + pattern.length ≤ text.length) :
    (rkCmpRes text pattern (hashFold d q pattern)
        (scratchHash text pattern.length d q i) i).2.1 =
      decide (window text i pattern.length = pattern) := by
  rw [rkCmpRes]
  by_cases hh : hashFold d q pattern = scratchHash text pattern.length d q i
  · rw [if_pos hh]
    exact cmpLoop_matched_eq_decide text pattern false i h
  · rw [if_neg hh]
    have hw : ¬window text i pattern.length = pattern := by
      intro hw
      exact hh (scratchHash_eq_of_window text pattern d q i hw).symm
    simp [hw]

/-! ## The closed form of the Rabin-Karp main loop -/

/-- The trace the Rabin-Karp main loop is supposed to produce from offset
`i` with `k` offsets left: one check record per offset carrying the
from-scratch window hash, with a roll record after every offset except the
last. -/
def rkSpecTrace (text pattern : List Char) (d q : Int) (ctimer rtimer : Nat → ℚ)
    (mem : Nat) : Nat → Nat → List RKStep
  | 0, _ => []
  | k + 1, i =>
    let m := pattern.length
    let ph := hashFold d q pattern
    rkCheckStep text pattern ph (scratchHash text m d q i) ctimer mem i ::
      (if i < text.length - m then
        rkRollStep ph (scratchHash text m d q (i + 1)) rtimer mem i ::
          rkSpecTrace text pattern d q ctimer rtimer mem k (i + 1)
      else rkSpecTrace text pattern d q ctimer rtimer mem k (i + 1))

/-- Workhorse: started at offset `i` with the true window hash, the main
loop returns exactly the true occurrences among the remaining offsets and
the specified trace. -/
theorem rkGo_eq_spec (text pattern : List Char) (d q : Int) (ctimer rtimer : Nat → ℚ)
    (mem : Nat) (hm : 1 ≤ pattern.length) (hmn : pattern.length ≤ text.length) :
    ∀ k i, i + k ≤ text.length + 1 - pattern.length →
      rkGo text pattern d q (d ^ (pattern.length - 1) % q) (hashFold d q pattern)
          ctimer rtimer mem k i (scratchHash text pattern.length d q i) =
        ((List.range' i k).filter (fun j => decide (window text j pattern.length = pattern)),
         rkSpecTrace text pattern d q ctimer rtimer mem k i) := by
  intro k
  induction k with
  | zero => intro i _; simp [rkGo, rkSpecTrace]
  | succ k ih =>
    intro i hik
    have hin : i + pattern.length ≤ text.length := by omega
    rw [rkGo, rkSpecTrace, List.range'_succ, List.filter_cons]
    simp only [rkCmpRes_matched text pattern d q i hin]
    by_cases hroll : i < text.length - pattern.length
    · rw [if_pos hroll]
      have ht2 : (d * (scratchHash text pattern.length d q i -
            ordc (charAt text i) * (d ^ (pattern.length - 1) % q)) +
          ordc (charAt text (i + pattern.length))) % q =
          scratchHash text pattern.length d q (i + 1) :=
        roll_formula text pattern.length d q i hm (by omega)
      rw [ht2, ih (i + 1) (by omega), if_pos hroll]
      by_cases hw : window text i pattern.length = pattern
      · simp [hw]
      · simp [hw]
    · rw [if_neg hroll]
      have hk0 : k = 0 := by omega
      subst hk0
      rw [if_neg hroll]
      simp only [rkGo, rkSpecTrace, List.range'_zero, List.filter_nil]
      by_cases hw : window text i pattern.length = pattern
      · simp [hw]
      · simp [hw]

/-- `rabin_karp_instrumented`, in closed form: the init record followed by
the specified trace, and exactly the true occurrences as matches. -/
theorem rabin_karp_eq_spec (text pattern : List Char) (d q : Int) (t0 : ℚ)
    (ctimer rtimer : Nat → ℚ) (mem : Nat)
    (hm : 1 ≤ pattern.length) (hmn : pattern.length ≤ text.length) :
    rabin_karp_instrumented text pattern d q t0 ctimer rtimer mem =
      ((List.range' 0 (text.length + 1 - pattern.length)).filter
          (fun j => decide (window text j pattern.length = pattern)),
       rkInitStep text pattern d q t0 mem ::
         rkSpecTrace text pattern d q ctimer rtimer mem
           (text.length + 1 - pattern.length) 0) := by
  have h0 := rkGo_eq_spec text pattern d q ctimer rtimer mem hm hmn
    (text.length + 1 - pattern.length) 0 (by omega)
  rw [rabin_karp_instrumented]
  rw [← scratchHash_zero text pattern.length d q, h0]

/-! ## The closed form of the naive matcher -/

/-- The naive matcher's match list is exactly the list of offsets whose
window equals the pattern, in increasing order. -/
theorem naive_matches_eq (text pattern : List Char) (ntimer : Nat → ℚ) (mem : Nat)
    (hmn : pattern.length ≤ text.length) :
    (naive_string_matching_instrumented text pattern ntimer mem).1 =
      (List.range (text.length + 1 - pattern.length)).filter
        (fun j => decide (window text j pattern.length = pattern)) := by
  rw [naive_string_matching_instrumented]
  apply List.filter_congr
  intro j hj
  rw [List.mem_range] at hj
  exact cmpLoop_matched_eq_decide text pattern true j (by omega)

/-! ## Structure of the Rabin-Karp trace -/

/-- Every record of the main-loop trace is the check record of some
remaining offset, or the roll record of some non-final remaining offset,
and conversely. -/
theorem mem_rkSpecTrace_iff (text pattern : List Char) (d q : Int)
    (ctimer rtimer : Nat → ℚ) (mem : Nat) :
    ∀ k i s, (s ∈ rkSpecTrace text pattern d q ctimer rtimer mem k i ↔
      ∃ j, i ≤ j ∧ j < i + k ∧
        (s = rkCheckStep text pattern (hashFold d q pattern)
              (scratchHash text pattern.length d q j) ctimer mem j ∨
         (j < text.length - pattern.length ∧
           s = rkRollStep (hashFold d q pattern)
                 (scratchHash text pattern.length d q (j + 1)) rtimer mem j))) := by
  intro k
  induction k with
  | zero =>
    intro i s
    simp only [rkSpecTrace, List.not_mem_nil, false_iff]
    rintro ⟨j, h1, h2, _⟩
    omega
  | succ k ih =>
    intro i s
    rw [rkSpecTrace]
    by_cases hroll : i < text.length - pattern.length
    · rw [if_pos hroll]
      simp only [List.mem_cons, ih (i + 1) s]
      constructor
      · rintro (rfl | rfl | ⟨j, h1, h2, hj⟩)
        · exact ⟨i, le_refl i, by omega, Or.inl rfl⟩
        · exact ⟨i, le_refl i, by omega, Or.inr ⟨hroll, rfl⟩⟩
        · exact ⟨j, by omega, by omega, hj⟩
      · rintro ⟨j, h1, h2, hj⟩
        rcases Nat.eq_or_lt_of_le h1 with rfl | hlt
        · rcases hj with rfl | ⟨_, rfl⟩
          · exact Or.inl rfl
          · exact Or.inr (Or.inl rfl)
        · exact Or.inr (Or.inr ⟨j, by omega, by omega, hj⟩)
    · rw [if_neg hroll]
      simp only [List.mem_cons, ih (i + 1) s]
      constructor
      · rintro (rfl | ⟨j, h1, h2, hj⟩)
        · exact ⟨i, le_refl i, by omega, Or.inl rfl⟩
        · exact ⟨j, by omega, by omega, hj⟩
      · rintro ⟨j, h1, h2, hj⟩
        rcases Nat.eq_or_lt_of_le h1 with rfl | hlt
        · rcases hj with rfl | ⟨hc, rfl⟩
          · exact Or.inl rfl
          · exact absurd hc hroll
        · exact Or.inr ⟨j, by omega, by omega, hj⟩

/-- Length of the main-loop trace: one check per offset plus one roll per
non-final offset. -/
theorem rkSpecTrace_length (text pattern : List Char) (d q : Int)
    (ctimer rtimer : Nat → ℚ) (mem : Nat) (hmn : pattern.length ≤ text.length) :
    ∀ k i, i + k = text.length + 1 - pattern.length →
      (rkSpecTrace text pattern d q ctimer rtimer mem k i).length = 2 * k - 1 := by
  intro k
  induction k with
  | zero => intro i _; rfl
  | succ k ih =>
    intro i hik
    rw [rkSpecTrace]
    by_cases hroll : i < text.length - pattern.length
    · rw [if_pos hroll]
      have hk : 1 ≤ k := by omega
      simp only [List.length_cons, ih (i + 1) (by omega)]
      omega
    · rw [if_neg hroll]
      have hk : k = 0 := by omega
      subst hk
      rfl

/-! ## Field projections of the step records -/

@[simp] theorem rkCheckStep_phase (text pattern : List Char) (ph th : Int)
    (ctimer : Nat → ℚ) (mem i : Nat) :
    (rkCheckStep text pattern ph th ctimer mem i).phase = "check" := rfl

@[simp] theorem rkCheckStep_index (text pattern : List Char) (ph th : Int)
    (ctimer : Nat → ℚ) (mem i : Nat) :
    (rkCheckStep text pattern ph th ctimer mem i).index = (i : Int) := rfl

@[simp] theorem rkCheckStep_p_hash (text pattern : List Char) (ph th : Int)
    (ctimer : Nat → ℚ) (mem i : Nat) :
    (rkCheckStep text pattern ph th ctimer mem i).p_hash = ph := rfl

@[simp] theorem rkCheckStep_t_hash (text pattern : List Char) (ph th : Int)
    (ctimer : Nat → ℚ) (mem i : Nat) :
    (rkCheckStep text pattern ph th ctimer mem i).t_hash = th := rfl

@[simp] theorem rkCheckStep_matched (text pattern : List Char) (ph th : Int)
    (ctimer : Nat → ℚ) (mem i : Nat) :
    (rkCheckStep text pattern ph th ctimer mem i).matched =
      (rkCmpRes text pattern ph th i).2.1 := rfl

@[simp] theorem rkCheckStep_comparisons (text pattern : List Char) (ph th : Int)
    (ctimer : Nat → ℚ) (mem i : Nat) :
    (rkCheckStep text pattern ph th ctimer mem i).comparisons =
      (rkCmpRes text pattern ph th i).1 := rfl

@[simp] theorem rkRollStep_phase (ph t2 : Int) (rtimer : Nat → ℚ) (mem i : Nat) :
    (rkRollStep ph t2 rtimer mem i).phase = "rolling_hash" := rfl

@[simp] theorem rkRollStep_index (ph t2 : Int) (rtimer : Nat → ℚ) (mem i : Nat) :
    (rkRollStep ph t2 rtimer mem i).index = (i : Int) := rfl

@[simp] theorem rkRollStep_p_hash (ph t2 : Int) (rtimer : Nat → ℚ) (mem i : Nat) :
    (rkRollStep ph t2 rtimer mem i).p_hash = ph := rfl

@[simp] theorem rkRollStep_t_hash (ph t2 : Int) (rtimer : Nat → ℚ) (mem i : Nat) :
    (rkRollStep ph t2 rtimer mem i).t_hash = t2 := rfl

@[simp] theorem rkRollStep_matched (ph t2 : Int) (rtimer : Nat → ℚ) (mem i : Nat) :
    (rkRollStep ph t2 rtimer mem i).matched = false := rfl

@[simp] theorem rkRollStep_comparisons (ph t2 : Int) (rtimer : Nat → ℚ) (mem i : Nat) :
    (rkRollStep ph t2 rtimer mem i).comparisons = 0 := rfl

@[simp] theorem rkInitStep_phase (text pattern : List Char) (d q : Int) (t0 : ℚ) (mem : Nat) :
    (rkInitStep text pattern d q t0 mem).phase = "init_hash" := rfl

@[simp] theorem rkInitStep_p_hash (text pattern : List Char) (d q : Int) (t0 : ℚ) (mem : Nat) :
    (rkInitStep text pattern d q t0 mem).p_hash = hashFold d q pattern := rfl

@[simp] theorem rkInitStep_t_hash (text pattern : List Char) (d q : Int) (t0 : ℚ) (mem : Nat) :
    (rkInitStep text pattern d q t0 mem).t_hash =
      hashFold d q (text.take pattern.length) := rfl

@[simp] theorem rkInitStep_matched (text pattern : List Char) (d q : Int) (t0 : ℚ) (mem : Nat) :
    (rkInitStep text pattern d q t0 mem).matched = false := rfl

@[simp] theorem rkInitStep_comparisons (text pattern : List Char) (d q : Int) (t0 : ℚ)
    (mem : Nat) : (rkInitStep text pattern d q t0 mem).comparisons = 0 := rfl

@[simp] theorem rkInitStep_index (text pattern : List Char) (d q : Int) (t0 : ℚ) (mem : Nat) :
    (rkInitStep text pattern d q t0 mem).index = -1 := rfl

@[simp] theorem rkInitStep_time (text pattern : List Char) (d q : Int) (t0 : ℚ) (mem : Nat) :
    (rkInitStep text pattern d q t0 mem).iteration_time_s = t0 := rfl

@[simp] theorem naiveStepAt_index (text pattern : List Char) (ntimer : Nat → ℚ)
    (mem i : Nat) : (naiveStepAt text pattern ntimer mem i).index = i := rfl

@[simp] theorem naiveStepAt_matched (text pattern : List Char) (ntimer : Nat → ℚ)
    (mem i : Nat) : (naiveStepAt text pattern ntimer mem i).matched =
      (cmpLoop text pattern true i pattern.length 0).2.1 := rfl

@[simp] theorem naiveStepAt_comparisons (text pattern : List Char) (ntimer : Nat → ℚ)
    (mem i : Nat) : (naiveStepAt text pattern ntimer mem i).comparisons =
      (cmpLoop text pattern true i pattern.length 0).1 := rfl

/-! ## Validator characterization -/

/-- `validate_inputs` succeeds (returning its inputs unchanged) precisely
on inputs satisfying the documented invariant. -/
theorem validate_inputs_eq_ok_iff (text pattern : List Char) :
    validate_inputs text pattern = Except.ok (text, pattern) ↔
      (text ≠ [] ∧ pattern ≠ [] ∧ pattern.length ≤ text.length ∧
        text.length ≤ 20000) := by
  rw [validate_inputs]
  split_ifs with h1 h2 h3
  · rw [Bool.or_eq_true, List.isEmpty_iff, List.isEmpty_iff] at h1
    constructor
    · intro h; exact absurd h (by simp)
    · rintro ⟨ht, hp, -, -⟩; tauto
  · constructor
    · intro h; exact absurd h (by simp)
    · rintro ⟨-, -, hl, -⟩; omega
  · constructor
    · intro h; exact absurd h (by simp)
    · rintro ⟨-, -, -, hl⟩; omega
  · rw [Bool.or_eq_true, List.isEmpty_iff, List.isEmpty_iff] at h1
    push_neg at h1
    simp only [true_iff]
    exact ⟨h1.1, h1.2, by omega, by omega⟩

/-- `validate_inputs` fails precisely when one of the four documented
guards fires. -/
theorem validate_inputs_error_iff (text pattern : List Char) :
    (∃ e, validate_inputs text pattern = Except.error e) ↔
      (text = [] ∨ pattern = [] ∨ text.length < pattern.length ∨
        20000 < text.length) := by
  rw [validate_inputs]
  split_ifs with h1 h2 h3
  · rw [Bool.or_eq_true, List.isEmpty_iff, List.isEmpty_iff] at h1
    simp only [Except.error.injEq, exists_eq']
    tauto
  · simp only [Except.error.injEq, exists_eq', true_iff]
    right; right; left; omega
  · simp only [Except.error.injEq, exists_eq', true_iff]
    right; right; right; omega
  · rw [Bool.or_eq_true, List.isEmpty_iff, List.isEmpty_iff] at h1
    push_neg at h1
    constructor
    · rintro ⟨e, he⟩; exact absurd he (by simp)
    · rintro (h | h | h | h)
      · exact absurd h h1.1
      · exact absurd h h1.2
      · omega
      · omega

/-! ## Claim theorems -/

/-- C1: for every `(text, pattern)` satisfying the validator's invariant
(`1 ≤ len(pattern) ≤ len(text) ≤ 20000`), the naive matcher and the
Rabin-Karp matcher with the default base `256` and modulus `101` return
identical match-position sequences; in particular, on `text = "AAAA"`,
`pattern = "AA"` both return `[0, 1, 2]`. -/
theorem naive_rk_match_positions_eq :
    (∀ (text pattern : List Char) (ntimer : Nat → ℚ) (nmem : Nat) (t0 : ℚ)
        (ctimer rtimer : Nat → ℚ) (rmem : Nat),
        1 ≤ pattern.length → pattern.length ≤ text.length → text.length ≤ 20000 →
        (naive_string_matching_instrumented text pattern ntimer nmem).1 =
          (rabin_karp_instrumented text pattern 256 101 t0 ctimer rtimer rmem).1) ∧
    (naive_string_matching_instrumented ['A', 'A', 'A', 'A'] ['A', 'A']
        (fun _ => 0) 0).1 = [0, 1, 2] ∧
    (rabin_karp_instrumented ['A', 'A', 'A', 'A'] ['A', 'A'] 256 101 0 (fun _ => 0)
        (fun _ => 0) 0).1 = [0, 1, 2] := by
  refine ⟨?_, by decide, by decide⟩
  intro text pattern ntimer nmem t0 ctimer rtimer rmem hm hmn hn
  rw [naive_matches_eq text pattern ntimer nmem hmn, List.range_eq_range',
    rabin_karp_eq_spec text pattern 256 101 t0 ctimer rtimer rmem hm hmn]

theorem naive_rk_match_positions_eq_witness :
    (naive_string_matching_instrumented ['A', 'B'] ['B'] (fun _ => 0) 0).1 =
      (rabin_karp_instrumented ['A', 'B'] ['B'] 256 101 0 (fun _ => 0)
        (fun _ => 0) 0).1 :=
  naive_rk_match_positions_eq.1 ['A', 'B'] ['B'] (fun _ => 0) 0 0 (fun _ => 0)
    (fun _ => 0) 0 (by decide) (by decide) (by decide)

/-- C3: `validate_inputs` fails exactly when the text is empty, the
pattern is empty, the pattern is longer than the text, or the text exceeds
20000 characters; it accepts a 20000-character text and rejects a
20001-character one; on success it returns the `(text, pattern)` pair
unchanged (the embedding is a pure function, so it has no side effects). -/
theorem validate_inputs_contract :
    (∀ text pattern : List Char,
      ((∃ e, validate_inputs text pattern = Except.error e) ↔
        (text = [] ∨ pattern = [] ∨ text.length < pattern.length ∨
          20000 < text.length)) ∧
      ((text ≠ [] ∧ pattern ≠ [] ∧ pattern.length ≤ text.length ∧
          text.length ≤ 20000) →
        validate_inputs text pattern = Except.ok (text, pattern))) ∧
    validate_inputs (List.replicate 20000 'A') ['A'] =
      Except.ok (List.replicate 20000 'A', ['A']) ∧
    (∃ e, validate_inputs (List.replicate 20001 'A') ['A'] = Except.error e) := by
  refine ⟨fun text pattern => ⟨validate_inputs_error_iff text pattern,
    fun h => (validate_inputs_eq_ok_iff text pattern).mpr h⟩, ?_, ?_⟩
  · refine (validate_inputs_eq_ok_iff _ _).mpr ⟨?_, ?_, ?_, ?_⟩
    · intro h
      have hl := congrArg List.length h
      rw [List.length_replicate] at hl
      simp at hl
    · simp
    · rw [List.length_replicate]
      norm_num
    · rw [List.length_replicate]
  · refine (validate_inputs_error_iff _ _).mpr (Or.inr (Or.inr (Or.inr ?_)))
    rw [List.length_replicate]
    norm_num

theorem validate_inputs_contract_witness :
    validate_inputs ['A', 'B'] ['B'] = Except.ok (['A', 'B'], ['B']) :=
  (validate_inputs_contract.1 ['A', 'B'] ['B']).2 (by decide)

/-- C2: the naive matcher examines each offset `0 .. n-m` in increasing
order, emits exactly one record per offset (trace length `n-m+1`), and its
match positions are exactly the offsets whose window equals the pattern,
strictly increasing and each between `0` and `n-m`. -/
theorem naive_trace_structure :
    ∀ (text pattern : List Char) (ntimer : Nat → ℚ) (mem : Nat),
      1 ≤ pattern.length → pattern.length ≤ text.length → text.length ≤ 20000 →
      ((naive_string_matching_instrumented text pattern ntimer mem).2.map
          (fun s => s.index) =
        List.range (text.length - pattern.length + 1)) ∧
      ((naive_string_matching_instrumented text pattern ntimer mem).2.length =
        text.length - pattern.length + 1) ∧
      (∀ p, p ∈ (naive_string_matching_instrumented text pattern ntimer mem).1 ↔
        (p ≤ text.length - pattern.length ∧
          window text p pattern.length = pattern)) ∧
      (naive_string_matching_instrumented text pattern ntimer mem).1.Pairwise (· < ·) := by
  intro text pattern ntimer mem hm hmn hn
  have hrange : text.length + 1 - pattern.length = text.length - pattern.length + 1 := by
    omega
  refine ⟨?_, ?_, ?_, ?_⟩
  · rw [naive_string_matching_instrumented]
    simp only [List.map_map]
    have hcomp : ((fun s : NaiveStep => s.index) ∘ naiveStepAt text pattern ntimer mem) =
        id := by
      funext i; rfl
    rw [hcomp, List.map_id, hrange]
  · rw [naive_string_matching_instrumented]
    simp only [List.length_map, List.length_range]
    omega
  · intro p
    rw [naive_matches_eq text pattern ntimer mem hmn, List.mem_filter, List.mem_range,
      decide_eq_true_eq]
    constructor
    · rintro ⟨h1, h2⟩; exact ⟨by omega, h2⟩
    · rintro ⟨h1, h2⟩; exact ⟨by omega, h2⟩
  · rw [naive_matches_eq text pattern ntimer mem hmn]
    exact (List.pairwise_lt_range _).filter _

theorem naive_trace_structure_witness :
    ((naive_string_matching_instrumented ['A', 'B'] ['B'] (fun _ => 0) 0).2.map
        (fun s => s.index) = List.range 2) ∧
    ((naive_string_matching_instrumented ['A', 'B'] ['B'] (fun _ => 0) 0).2.length = 2) ∧
    (∀ p, p ∈ (naive_string_matching_instrumented ['A', 'B'] ['B'] (fun _ => 0) 0).1 ↔
      (p ≤ 1 ∧ window ['A', 'B'] p 1 = ['B'])) ∧
    (naive_string_matching_instrumented ['A', 'B'] ['B'] (fun _ => 0) 0).1.Pairwise
      (· < ·) :=
  naive_trace_structure ['A', 'B'] ['B'] (fun _ => 0) 0 (by decide) (by decide) (by decide)

/-- C7: the naive comparison count at offset `i` is the number of
characters examined before short-circuiting: `m` on a full match, and
`k+1` when column `k` is the first mismatch; on `text = "ABC"`,
`pattern = "XYZ"` the trace is a single step with 1 comparison and no
matches. -/
theorem naive_comparison_counts :
    (∀ (text pattern : List Char) (ntimer : Nat → ℚ) (mem : Nat),
      1 ≤ pattern.length → pattern.length ≤ text.length → text.length ≤ 20000 →
      ∀ i, i ≤ text.length - pattern.length →
        ∃ s ∈ (naive_string_matching_instrumented text pattern ntimer mem).2,
          s.index = i ∧
          (window text i pattern.length = pattern → s.comparisons = pattern.length) ∧
          (window text i pattern.length ≠ pattern →
            ∃ kk, kk < pattern.length ∧ s.comparisons = kk + 1 ∧
              charAt text (i + kk) ≠ charAt pattern kk ∧
              ∀ l, l < kk → charAt text (i + l) = charAt pattern l)) ∧
    (naive_string_matching_instrumented ['A', 'B', 'C'] ['X', 'Y', 'Z']
        (fun _ => 0) 0).1 = [] ∧
    ((naive_string_matching_instrumented ['A', 'B', 'C'] ['X', 'Y', 'Z']
        (fun _ => 0) 0).2.map (fun s => s.comparisons)) = [1] := by
  refine ⟨?_, by decide, by decide⟩
  intro text pattern ntimer mem hm hmn hn i hi
  have hib : i < text.length + 1 - pattern.length := by omega
  refine ⟨naiveStepAt text pattern ntimer mem i, ?_, rfl, ?_, ?_⟩
  · rw [naive_string_matching_instrumented]
    exact List.mem_map_of_mem _ (List.mem_range.mpr hib)
  · intro hw
    have hmatched : (cmpLoop text pattern true i pattern.length 0).2.1 = true := by
      rw [cmpLoop_matched_eq_decide text pattern true i (by omega)]
      simp [hw]
    rw [naiveStepAt_comparisons]
    exact cmpLoop_comparisons_of_matched text pattern true i pattern.length 0 hmatched
  · intro hw
    have hmatched : (cmpLoop text pattern true i pattern.length 0).2.1 = false := by
      rw [cmpLoop_matched_eq_decide text pattern true i (by omega)]
      simp [hw]
    obtain ⟨kk, h1, h2, h3, h4⟩ :=
      cmpLoop_comparisons_of_mismatch text pattern true i pattern.length 0 hmatched
    refine ⟨kk, h1, ?_, ?_, ?_⟩
    · rw [naiveStepAt_comparisons]; exact h2
    · simpa using h3
    · intro l hl; simpa using h4 l hl

theorem naive_comparison_counts_witness :
    ∃ s ∈ (naive_string_matching_instrumented ['A', 'B'] ['B'] (fun _ => 0) 0).2,
      s.index = 0 ∧
      (window ['A', 'B'] 0 1 = ['B'] → s.comparisons = 1) ∧
      (window ['A', 'B'] 0 1 ≠ ['B'] →
        ∃ kk, kk < 1 ∧ s.comparisons = kk + 1 ∧
          charAt ['A', 'B'] (0 + kk) ≠ charAt ['B'] kk ∧
          ∀ l, l < kk → charAt ['A', 'B'] (0 + l) = charAt ['B'] l) :=
  naive_comparison_counts.1 ['A', 'B'] ['B'] (fun _ => 0) 0 (by decide) (by decide)
    (by decide) 0 (by decide)

/-- The match positions computed by the Rabin-Karp main loop do not depend
on the timing oracles or on the memory estimate. -/
theorem rkGo_fst_indep (text pattern : List Char) (d q h ph : Int)
    (ct1 rt1 ct2 rt2 : Nat → ℚ) (m1 m2 : Nat) :
    ∀ k i t_hash, (rkGo text pattern d q h ph ct1 rt1 m1 k i t_hash).1 =
      (rkGo text pattern d q h ph ct2 rt2 m2 k i t_hash).1 := by
  intro k
  induction k with
  | zero => intro i t; rfl
  | succ k ih =>
    intro i t
    by_cases hc : i < text.length - pattern.length
    · simp only [rkGo, if_pos hc]
      rw [ih]
    · simp only [rkGo, if_neg hc]
      rw [ih]

/-- The per-step comparison counts of the Rabin-Karp trace do not depend
on the timing oracles or on the memory estimate. -/
theorem rkGo_comparisons_indep (text pattern : List Char) (d q h ph : Int)
    (ct1 rt1 ct2 rt2 : Nat → ℚ) (m1 m2 : Nat) :
    ∀ k i t_hash,
      (rkGo text pattern d q h ph ct1 rt1 m1 k i t_hash).2.map
          (fun s => s.comparisons) =
        (rkGo text pattern d q h ph ct2 rt2 m2 k i t_hash).2.map
          (fun s => s.comparisons) := by
  intro k
  induction k with
  | zero => intro i t; rfl
  | succ k ih =>
    intro i t
    by_cases hc : i < text.length - pattern.length
    · simp only [rkGo, if_pos hc, List.map_cons]
      rw [ih]
      simp
    · simp only [rkGo, if_neg hc, List.map_cons]
      rw [ih]
      simp

/-- C9: both matchers are deterministic up to timing: across runs on the
same `(text, pattern)` (and, for Rabin-Karp, the same base and modulus),
the match positions and the per-step comparison counts are identical
whatever the timing oracles or memory estimates produce. -/
theorem matchers_deterministic (text pattern : List Char) (d q : Int)
    (nt1 nt2 : Nat → ℚ) (nm1 nm2 : Nat) (t01 t02 : ℚ)
    (ct1 ct2 rt1 rt2 : Nat → ℚ) (rm1 rm2 : Nat) :
    ((naive_string_matching_instrumented text pattern nt1 nm1).1 =
      (naive_string_matching_instrumented text pattern nt2 nm2).1) ∧
    ((naive_string_matching_instrumented text pattern nt1 nm1).2.map
        (fun s => s.comparisons) =
      (naive_string_matching_instrumented text pattern nt2 nm2).2.map
        (fun s => s.comparisons)) ∧
    ((rabin_karp_instrumented text pattern d q t01 ct1 rt1 rm1).1 =
      (rabin_karp_instrumented text pattern d q t02 ct2 rt2 rm2).1) ∧
    ((rabin_karp_instrumented text pattern d q t01 ct1 rt1 rm1).2.map
        (fun s => s.comparisons) =
      (rabin_karp_instrumented text pattern d q t02 ct2 rt2 rm2).2.map
        (fun s => s.comparisons)) := by
  refine ⟨rfl, ?_, ?_, ?_⟩
  · rw [naive_string_matching_instrumented, naive_string_matching_instrumented]
    simp only [List.map_map]
    have hfun : ((fun s : NaiveStep => s.comparisons) ∘
          naiveStepAt text pattern nt1 nm1) =
        ((fun s : NaiveStep => s.comparisons) ∘ naiveStepAt text pattern nt2 nm2) := by
      funext i; rfl
    rw [hfun]
  · rw [rabin_karp_instrumented, rabin_karp_instrumented]
    exact rkGo_fst_indep text pattern d q _ _ ct1 rt1 ct2 rt2 rm1 rm2 _ 0 _
  · rw [rabin_karp_instrumented, rabin_karp_instrumented]
    simp only [List.map_cons]
    rw [rkGo_comparisons_indep text pattern d q _ _ ct1 rt1 ct2 rt2 rm1 rm2 _ 0 _]
    simp

/-- C4: for every offset `i < n - m`, the ROLL step after offset `i`
records exactly the hash obtained by folding the window
`text[i+1 .. i+1+m)` from scratch with `hash = (base*hash + ord c) % q`,
as a non-negative residue below the modulus; stated for every prime
modulus with base coprime to it (the defaults `256`/`101` instantiate it,
see the witness). -/
theorem rk_roll_hash_invariant :
    ∀ (text pattern : List Char) (dn qn : Nat) (t0 : ℚ) (ctimer rtimer : Nat → ℚ)
      (mem : Nat),
      1 ≤ pattern.length → pattern.length ≤ text.length → text.length ≤ 20000 →
      Nat.Prime qn → Nat.Coprime dn qn →
      ∀ i, i < text.length - pattern.length →
        ∃ s ∈ (rabin_karp_instrumented text pattern (dn : Int) (qn : Int) t0 ctimer
            rtimer mem).2,
          s.phase = "rolling_hash" ∧ s.index = (i : Int) ∧
          s.t_hash = hashFold (dn : Int) (qn : Int)
            (window text (i + 1) pattern.length) ∧
          0 ≤ s.t_hash ∧ s.t_hash < (qn : Int) := by
  intro text pattern dn qn t0 ctimer rtimer mem hm hmn hn hq hco i hi
  have hq0 : ((qn : Int)) ≠ 0 := by
    have := hq.pos
    omega
  have hqpos : (0 : Int) < (qn : Int) := by
    have := hq.pos
    omega
  rw [rabin_karp_eq_spec text pattern (dn : Int) (qn : Int) t0 ctimer rtimer mem hm hmn]
  refine ⟨rkRollStep (hashFold (dn : Int) (qn : Int) pattern)
      (scratchHash text pattern.length (dn : Int) (qn : Int) (i + 1)) rtimer mem i,
    ?_, rfl, rfl, rfl, ?_, ?_⟩
  · refine List.mem_cons_of_mem _
      ((mem_rkSpecTrace_iff text pattern (dn : Int) (qn : Int) ctimer rtimer mem
          (text.length + 1 - pattern.length) 0 _).mpr ?_)
    exact ⟨i, by omega, by omega, Or.inr ⟨hi, rfl⟩⟩
  · rw [rkRollStep_t_hash, scratchHash, hashFold_eq_polyHash]
    exact Int.emod_nonneg _ hq0
  · rw [rkRollStep_t_hash, scratchHash, hashFold_eq_polyHash]
    exact Int.emod_lt_of_pos _ hqpos

theorem rk_roll_hash_invariant_witness :
    ∃ s ∈ (rabin_karp_instrumented ['A', 'B'] ['B'] ((256 : Nat) : Int)
        ((101 : Nat) : Int) 0 (fun _ => 0) (fun _ => 0) 0).2,
      s.phase = "rolling_hash" ∧ s.index = ((0 : Nat) : Int) ∧
      s.t_hash = hashFold ((256 : Nat) : Int) ((101 : Nat) : Int)
        (window ['A', 'B'] (0 + 1) 1) ∧
      0 ≤ s.t_hash ∧ s.t_hash < ((101 : Nat) : Int) :=
  rk_roll_hash_invariant ['A', 'B'] ['B'] 256 101 0 (fun _ => 0) (fun _ => 0) 0
    (by decide) (by decide) (by decide) (by norm_num) (by decide) 0 (by decide)

/-- C5: at every offset, a hash mismatch yields a CHECK step with 0
comparisons and `matched = false` and the offset is not reported; on hash
equality the character comparison decides the match (full `m` comparisons
on success), and an offset is reported exactly when its window equals the
pattern — no false positives from collisions, no missed occurrences. -/
theorem rk_check_step_behavior :
    ∀ (text pattern : List Char) (d q : Int) (t0 : ℚ) (ctimer rtimer : Nat → ℚ)
      (mem : Nat),
      1 ≤ pattern.length → pattern.length ≤ text.length → text.length ≤ 20000 →
      0 < q →
      ∀ i, i ≤ text.length - pattern.length →
        ∃ s ∈ (rabin_karp_instrumented text pattern d q t0 ctimer rtimer mem).2,
          s.phase = "check" ∧ s.index = (i : Int) ∧
          (s.p_hash ≠ s.t_hash → s.comparisons = 0 ∧ s.matched = false ∧
            i ∉ (rabin_karp_instrumented text pattern d q t0 ctimer rtimer mem).1) ∧
          (s.p_hash = s.t_hash →
            (s.matched = true ↔ window text i pattern.length = pattern) ∧
            (s.matched = true → s.comparisons = pattern.length)) ∧
          (i ∈ (rabin_karp_instrumented text pattern d q t0 ctimer rtimer mem).1 ↔
            window text i pattern.length = pattern) := by
  intro text pattern d q t0 ctimer rtimer mem hm hmn hn hq i hi
  have hin : i + pattern.length ≤ text.length := by omega
  have hmem_iff : i ∈ (rabin_karp_instrumented text pattern d q t0 ctimer rtimer mem).1 ↔
      window text i pattern.length = pattern := by
    rw [rabin_karp_eq_spec text pattern d q t0 ctimer rtimer mem hm hmn]
    simp only [List.mem_filter, List.mem_range'_1, decide_eq_true_eq]
    constructor
    · rintro ⟨-, h⟩; exact h
    · intro h; exact ⟨⟨by omega, by omega⟩, h⟩
  refine ⟨rkCheckStep text pattern (hashFold d q pattern)
      (scratchHash text pattern.length d q i) ctimer mem i, ?_, rfl, rfl, ?_, ?_, hmem_iff⟩
  · rw [rabin_karp_eq_spec text pattern d q t0 ctimer rtimer mem hm hmn]
    refine List.mem_cons_of_mem _
      ((mem_rkSpecTrace_iff text pattern d q ctimer rtimer mem
          (text.length + 1 - pattern.length) 0 _).mpr ?_)
    exact ⟨i, by omega, by omega, Or.inl rfl⟩
  · intro hne
    rw [rkCheckStep_p_hash, rkCheckStep_t_hash] at hne
    refine ⟨?_, ?_, ?_⟩
    · rw [rkCheckStep_comparisons, rkCmpRes, if_neg hne]
    · rw [rkCheckStep_matched, rkCmpRes, if_neg hne]
    · rw [hmem_iff]
      intro hw
      exact hne (scratchHash_eq_of_window text pattern d q i hw).symm
  · intro heq
    rw [rkCheckStep_p_hash, rkCheckStep_t_hash] at heq
    constructor
    · rw [rkCheckStep_matched, rkCmpRes_matched text pattern d q i hin,
        decide_eq_true_eq]
    · intro hmt
      rw [rkCheckStep_matched, rkCmpRes, if_pos heq] at hmt
      rw [rkCheckStep_comparisons, rkCmpRes, if_pos heq]
      exact cmpLoop_comparisons_of_matched text pattern false i pattern.length 0 hmt

theorem rk_check_step_behavior_witness :
    ∃ s ∈ (rabin_karp_instrumented ['A', 'B'] ['B'] 256 101 0 (fun _ => 0)
        (fun _ => 0) 0).2,
      s.phase = "check" ∧ s.index = ((0 : Nat) : Int) ∧
      (s.p_hash ≠ s.t_hash → s.comparisons = 0 ∧ s.matched = false ∧
        0 ∉ (rabin_karp_instrumented ['A', 'B'] ['B'] 256 101 0 (fun _ => 0)
          (fun _ => 0) 0).1) ∧
      (s.p_hash = s.t_hash →
        (s.matched = true ↔ window ['A', 'B'] 0 1 = ['B']) ∧
        (s.matched = true → s.comparisons = 1)) ∧
      (0 ∈ (rabin_karp_instrumented ['A', 'B'] ['B'] 256 101 0 (fun _ => 0)
          (fun _ => 0) 0).1 ↔ window ['A', 'B'] 0 1 = ['B']) :=
  rk_check_step_behavior ['A', 'B'] ['B'] 256 101 0 (fun _ => 0) (fun _ => 0) 0
    (by decide) (by decide) (by decide) (by decide) 0 (by decide)

theorem rkSpecTrace_countP_check (text pattern : List Char) (d q : Int)
    (ctimer rtimer : Nat → ℚ) (mem : Nat) (hmn : pattern.length ≤ text.length) :
    ∀ k i, i + k = text.length + 1 - pattern.length →
      (rkSpecTrace text pattern d q ctimer rtimer mem k i).countP
        (fun s => s.phase == "check") = k := by
  intro k
  induction k with
  | zero => intro i _; rfl
  | succ k ih =>
    intro i hik
    rw [rkSpecTrace]
    by_cases hroll : i < text.length - pattern.length
    · rw [if_pos hroll]
      simp only [List.countP_cons, ih (i + 1) (by omega), rkCheckStep_phase,
        rkRollStep_phase]
      simp
    · rw [if_neg hroll]
      have hk : k = 0 := by omega
      subst hk
      simp only [List.countP_cons, rkCheckStep_phase]
      simp [rkSpecTrace]

theorem rkSpecTrace_countP_roll (text pattern : List Char) (d q : Int)
    (ctimer rtimer : Nat → ℚ) (mem : Nat) (hmn : pattern.length ≤ text.length) :
    ∀ k i, i + k = text.length + 1 - pattern.length →
      (rkSpecTrace text pattern d q ctimer rtimer mem k i).countP
        (fun s => s.phase == "rolling_hash") = k - 1 := by
  intro k
  induction k with
  | zero => intro i _; rfl
  | succ k ih =>
    intro i hik
    rw [rkSpecTrace]
    by_cases hroll : i < text.length - pattern.length
    · rw [if_pos hroll]
      have hk : 1 ≤ k := by omega
      simp only [List.countP_cons, ih (i + 1) (by omega), rkCheckStep_phase,
        rkRollStep_phase]
      simp
      omega
    · rw [if_neg hroll]
      have hk : k = 0 := by omega
      subst hk
      simp only [List.countP_cons, rkCheckStep_phase]
      simp [rkSpecTrace]

/-- C6: the Rabin-Karp trace is exactly one INIT step, then one CHECK step
per offset and one ROLL step after every offset but the last (total
length `1 + (n-m+1) + (n-m)`); every INIT and ROLL step has comparison
count `0`, and `matched` is true only on a CHECK step whose offset's
window equals the pattern. -/
theorem rk_trace_shape :
    ∀ (text pattern : List Char) (d q : Int) (t0 : ℚ) (ctimer rtimer : Nat → ℚ)
      (mem : Nat),
      1 ≤ pattern.length → pattern.length ≤ text.length → text.length ≤ 20000 →
      0 < q →
      ((rabin_karp_instrumented text pattern d q t0 ctimer rtimer mem).2.length =
        1 + (text.length - pattern.length + 1) + (text.length - pattern.length)) ∧
      ((rabin_karp_instrumented text pattern d q t0 ctimer rtimer mem).2.countP
        (fun s => s.phase == "init_hash") = 1) ∧
      ((rabin_karp_instrumented text pattern d q t0 ctimer rtimer mem).2.countP
        (fun s => s.phase == "check") = text.length - pattern.length + 1) ∧
      ((rabin_karp_instrumented text pattern d q t0 ctimer rtimer mem).2.countP
        (fun s => s.phase == "rolling_hash") = text.length - pattern.length) ∧
      (∀ s ∈ (rabin_karp_instrumented text pattern d q t0 ctimer rtimer mem).2,
        s.phase = "init_hash" ∨ s.phase = "rolling_hash" → s.comparisons = 0) ∧
      (∀ s ∈ (rabin_karp_instrumented text pattern d q t0 ctimer rtimer mem).2,
        s.matched = true → s.phase = "check" ∧
          ∃ i : Nat, s.index = (i : Int) ∧ window text i pattern.length = pattern) := by
  intro text pattern d q t0 ctimer rtimer mem hm hmn hn hq
  rw [rabin_karp_eq_spec text pattern d q t0 ctimer rtimer mem hm hmn]
  refine ⟨?_, ?_, ?_, ?_, ?_, ?_⟩
  · simp only [List.length_cons,
      rkSpecTrace_length text pattern d q ctimer rtimer mem hmn
        (text.length + 1 - pattern.length) 0 (by omega)]
    omega
  · simp only [List.countP_cons, rkInitStep_phase]
    have h0 : (rkSpecTrace text pattern d q ctimer rtimer mem
        (text.length + 1 - pattern.length) 0).countP
        (fun s => s.phase == "init_hash") = 0 := by
      rw [List.countP_eq_zero]
      intro s hs
      obtain ⟨j, -, -, hj | ⟨-, hj⟩⟩ :=
        (mem_rkSpecTrace_iff text pattern d q ctimer rtimer mem _ 0 s).mp hs
      · subst hj; simp
      · subst hj; simp
    rw [h0]
    simp
  · simp only [List.countP_cons, rkInitStep_phase,
      rkSpecTrace_countP_check text pattern d q ctimer rtimer mem hmn
        (text.length + 1 - pattern.length) 0 (by omega)]
    simp
    omega
  · simp only [List.countP_cons, rkInitStep_phase,
      rkSpecTrace_countP_roll text pattern d q ctimer rtimer mem hmn
        (text.length + 1 - pattern.length) 0 (by omega)]
    simp
    omega
  · intro s hs hphase
    rcases List.mem_cons.mp hs with rfl | hs'
    · rfl
    · obtain ⟨j, -, -, hj | ⟨-, hj⟩⟩ :=
        (mem_rkSpecTrace_iff text pattern d q ctimer rtimer mem _ 0 s).mp hs'
      · subst hj
        rcases hphase with hph | hph <;> simp at hph
      · subst hj; rfl
  · intro s hs hmt
    rcases List.mem_cons.mp hs with rfl | hs'
    · simp at hmt
    · obtain ⟨j, -, hjb, hj | ⟨-, hj⟩⟩ :=
        (mem_rkSpecTrace_iff text pattern d q ctimer rtimer mem _ 0 s).mp hs'
      · subst hj
        refine ⟨rfl, j, rfl, ?_⟩
        rw [rkCheckStep_matched, rkCmpRes_matched text pattern d q j (by omega),
          decide_eq_true_eq] at hmt
        exact hmt
      · subst hj
        simp at hmt

theorem rk_trace_shape_witness :
    ((rabin_karp_instrumented ['A', 'B'] ['B'] 256 101 0 (fun _ => 0)
        (fun _ => 0) 0).2.length = 1 + 2 + 1) ∧
    ((rabin_karp_instrumented ['A', 'B'] ['B'] 256 101 0 (fun _ => 0)
        (fun _ => 0) 0).2.countP (fun s => s.phase == "init_hash") = 1) ∧
    ((rabin_karp_instrumented ['A', 'B'] ['B'] 256 101 0 (fun _ => 0)
        (fun _ => 0) 0).2.countP (fun s => s.phase == "check") = 2) ∧
    ((rabin_karp_instrumented ['A', 'B'] ['B'] 256 101 0 (fun _ => 0)
        (fun _ => 0) 0).2.countP (fun s => s.phase == "rolling_hash") = 1) ∧
    (∀ s ∈ (rabin_karp_instrumented ['A', 'B'] ['B'] 256 101 0 (fun _ => 0)
        (fun _ => 0) 0).2,
      s.phase = "init_hash" ∨ s.phase = "rolling_hash" → s.comparisons = 0) ∧
    (∀ s ∈ (rabin_karp_instrumented ['A', 'B'] ['B'] 256 101 0 (fun _ => 0)
        (fun _ => 0) 0).2,
      s.matched = true → s.phase = "check" ∧
        ∃ i : Nat, s.index = (i : Int) ∧ window ['A', 'B'] i 1 = ['B']) :=
  rk_trace_shape ['A', 'B'] ['B'] 256 101 0 (fun _ => 0) (fun _ => 0) 0
    (by decide) (by decide) (by decide) (by decide)

/-- C8: the Rabin-Karp matcher emits exactly one INIT step, at the head of
the trace, recording the pattern hash and initial window hash folded over
the first `m` characters with `hash = (base*hash + ord c) % q`, together
with `h = base^(m-1) mod modulus` (in its detail line) and its elapsed
time; no other step has the INIT phase. -/
theorem rk_init_step_contract :
    ∀ (text pattern : List Char) (d q : Int) (t0 : ℚ) (ctimer rtimer : Nat → ℚ)
      (mem : Nat),
      1 ≤ pattern.length → pattern.length ≤ text.length → text.length ≤ 20000 →
      0 < q →
      ∃ s0 rest, (rabin_karp_instrumented text pattern d q t0 ctimer rtimer mem).2 =
          s0 :: rest ∧
        s0.phase = "init_hash" ∧
        s0.p_hash = hashFold d q pattern ∧
        s0.t_hash = hashFold d q (text.take pattern.length) ∧
        s0.comparisons = 0 ∧
        s0.iteration_time_s = t0 ∧
        s0.details = ["initial p_hash=" ++ toString (hashFold d q pattern) ++
          ", t_hash=" ++ toString (hashFold d q (text.take pattern.length)) ++
          ", h=" ++ toString (d ^ (pattern.length - 1) % q)] ∧
        (∀ s ∈ rest, s.phase ≠ "init_hash") := by
  intro text pattern d q t0 ctimer rtimer mem hm hmn hn hq
  rw [rabin_karp_eq_spec text pattern d q t0 ctimer rtimer mem hm hmn]
  refine ⟨rkInitStep text pattern d q t0 mem,
    rkSpecTrace text pattern d q ctimer rtimer mem (text.length + 1 - pattern.length) 0,
    rfl, rfl, rfl, rfl, rfl, rfl, rfl, ?_⟩
  intro s hs
  obtain ⟨j, -, -, hj | ⟨-, hj⟩⟩ :=
    (mem_rkSpecTrace_iff text pattern d q ctimer rtimer mem _ 0 s).mp hs
  · subst hj; simp
  · subst hj; simp

theorem rk_init_step_contract_witness :
    ∃ s0 rest, (rabin_karp_instrumented ['A', 'B'] ['B'] 256 101 0 (fun _ => 0)
        (fun _ => 0) 0).2 = s0 :: rest ∧
      s0.phase = "init_hash" ∧
      s0.p_hash = hashFold 256 101 ['B'] ∧
      s0.t_hash = hashFold 256 101 (['A', 'B'].take 1) ∧
      s0.comparisons = 0 ∧
      s0.iteration_time_s = 0 ∧
      s0.details = ["initial p_hash=" ++ toString (hashFold 256 101 ['B']) ++
        ", t_hash=" ++ toString (hashFold 256 101 (['A', 'B'].take 1)) ++
        ", h=" ++ toString ((256 : Int) ^ (1 - 1) % 101)] ∧
      (∀ s ∈ rest, s.phase ≠ "init_hash") :=
  rk_init_step_contract ['A', 'B'] ['B'] 256 101 0 (fun _ => 0) (fun _ => 0) 0
    (by decide) (by decide) (by decide) (by decide)

/-- C10: every step the Rabin-Karp matcher emits (INIT, CHECK and ROLL
alike) records the same pattern hash: the initial hash folded over the
full pattern, for every valid input and every base and modulus. -/
theorem rk_pattern_hash_constant :
    ∀ (text pattern : List Char) (d q : Int) (t0 : ℚ) (ctimer rtimer : Nat → ℚ)
      (mem : Nat),
      1 ≤ pattern.length → pattern.length ≤ text.length → text.length ≤ 20000 →
      0 < q →
      ∀ s ∈ (rabin_karp_instrumented text pattern d q t0 ctimer rtimer mem).2,
        s.p_hash = hashFold d q pattern := by
  intro text pattern d q t0 ctimer rtimer mem hm hmn hn hq s hs
  rw [rabin_karp_eq_spec text pattern d q t0 ctimer rtimer mem hm hmn] at hs
  rcases List.mem_cons.mp hs with rfl | hs'
  · rfl
  · obtain ⟨j, -, -, hj | ⟨-, hj⟩⟩ :=
      (mem_rkSpecTrace_iff text pattern d q ctimer rtimer mem _ 0 s).mp hs'
    · subst hj; rfl
    · subst hj; rfl

theorem rk_pattern_hash_constant_witness :
    (rkInitStep ['A', 'B'] ['B'] 256 101 0 0).p_hash = hashFold 256 101 ['B'] :=
  rk_pattern_hash_constant ['A', 'B'] ['B'] 256 101 0 (fun _ => 0) (fun _ => 0) 0
    (by decide) (by decide) (by decide) (by decide)
    (rkInitStep ['A', 'B'] ['B'] 256 101 0 0) (List.mem_cons_self _ _)

end DAA
